import Mathlib

/-!
Shallow embedding of `cargo-bom` (`src/main.rs`) and verification of its
specification.  Machine strings are modelled as Lean `String` with all
operations defined structurally over the underlying character list, so that
every definition evaluates by kernel reduction.  `BTreeSet` is modelled as a
strictly sorted, duplicate-free list maintained by ordered insertion.
-/

namespace CargoBom

/-! ## String primitives (models of the Rust `str` operations used) -/

/-- Strict character order: `Char` comparison by code point, as Rust `u8`/`char`
comparison over UTF-8 data. -/
def charLt (c d : Char) : Bool := decide (c < d)

/-- Lexicographic strict order on character lists: the order of Rust `&str`
(byte-wise lexicographic, which over UTF-8 agrees with code-point order). -/
def charListLt : List Char → List Char → Bool
  | [], [] => false
  | [], _ :: _ => true
  | _ :: _, [] => false
  | c :: cs, d :: ds => charLt c d || (c == d && charListLt cs ds)

/-- Strict order on strings, via their character lists. -/
def strLt (a b : String) : Bool := charListLt a.data b.data

/-- Worker for `splitStr`: scans left to right, splitting at each
non-overlapping occurrence of `sep` and keeping empty pieces, exactly as Rust
`str::split` with a string pattern.  The `fuel` argument only makes the
recursion structural; any fuel at least the length of the scanned list gives
the true result. -/
def splitGo (sep : List Char) : Nat → List Char → List Char → List (List Char)
  | 0, rest, acc => [acc ++ rest]
  | _ + 1, [], acc => [acc]
  | fuel + 1, c :: cs, acc =>
    if sep.isPrefixOf (c :: cs) then
      acc :: splitGo sep fuel (List.drop sep.length (c :: cs)) []
    else
      splitGo sep fuel cs (acc ++ [c])

/-- Model of Rust `str::split` with a non-empty string pattern. -/
def splitStr (s sep : String) : List String :=
  (splitGo sep.data (s.data.length + 1) s.data []).map String.mk

/-- Model of Rust `str::trim`: remove whitespace from both ends. -/
def trimStr (s : String) : String :=
  String.mk (((s.data.dropWhile Char.isWhitespace).reverse.dropWhile Char.isWhitespace).reverse)

/-- Model of Rust `str::starts_with` with a string pattern (case-sensitive
prefix test). -/
def startsWithStr (s pat : String) : Bool := List.isPrefixOf pat.data s.data

/-! ## `BTreeSet`, modelled as a strictly sorted duplicate-free list -/

/-- Model of `BTreeSet::insert`: ordered insertion; when an element comparing equal is
already present the set is unchanged. -/
def setInsert {α : Type} (lt : α → α → Bool) (x : α) : List α → List α
  | [] => [x]
  | y :: ys =>
    if lt x y then x :: y :: ys
    else if lt y x then y :: setInsert lt x ys
    else y :: ys

/-- Collect a list into a `BTreeSet` (`collect::<BTreeSet<_>>()`). -/
def setOfList {α : Type} (lt : α → α → Bool) (l : List α) : List α :=
  l.foldl (fun acc a => setInsert lt a acc) []

/-- Model of `BTreeSet::remove`: drop the element comparing equal to `x`.  On sets
(which hold at most one element per equivalence class) this is observably the
same as filtering out everything comparing equal to `x`. -/
def setRemove {α : Type} (lt : α → α → Bool) (x : α) (l : List α) : List α :=
  l.filter (fun y => lt x y || lt y x)

/-! ## Filesystem model

OS path components are either valid UTF-8 names or opaque non-UTF-8 names; a
path is a list of components.  `cargo-bom` reads one directory (the manifest
directory), so a `Filesystem` carries that directory's listing together with
an existence test for paths. -/

/-- An OS string: either valid UTF-8 (so `OsString::into_string` succeeds) or
an opaque non-UTF-8 blob (identified by a code). -/
inductive OsStr where
  | str (s : String)
  | raw (code : Nat)
deriving DecidableEq, Repr

/-- A filesystem path, as its list of components (the model of `PathBuf`,
whose comparison and equality are component-wise). -/
abbrev FsPath := List OsStr

/-- Strict order on path components: UTF-8 names by string order; the
placement of non-UTF-8 names is irrelevant to the program, any fixed order
models the byte-wise `OsStr` order. -/
def osLt : OsStr → OsStr → Bool
  | .str a, .str b => strLt a b
  | .str _, .raw _ => true
  | .raw _, .str _ => false
  | .raw j, .raw k => decide (j < k)

/-- Lexicographic strict order on paths, component-wise: the order of
`PathBuf` used by `BTreeSet<PathBuf>`. -/
def pathLt : FsPath → FsPath → Bool
  | [], [] => false
  | [], _ :: _ => true
  | _ :: _, [] => false
  | a :: as, b :: bs => osLt a b || (a == b && pathLt as bs)

/-- Model of `Path::parent`: drop the last component; `None` on an empty path, as
`parent` on a root/empty path. -/
def pathParent : FsPath → Option FsPath
  | [] => none
  | a :: as => some ((a :: as).dropLast)

/-- One directory entry, as returned by a successful per-entry read of
`read_dir`; it carries the raw file name, and its path is the scanned
directory extended by that name. -/
structure DirEntry where
  file_name : OsStr
deriving DecidableEq, Repr

/-- The filesystem state seen by `package_license_files` for one package:
an existence test on paths, and the outcome of listing the manifest
directory.  `read_dir = none` models the listing itself failing; an inner
`none` models a single entry whose per-entry read failed (skipped by
`.flatten()`). -/
structure Filesystem where
  existsFile : FsPath → Bool
  read_dir : Option (List (Option DirEntry))

/-! ## Data model (cargo `Package`, extensionally) -/

/-- Identity of a package: `PackageId` restricted to the fields the program
observes (cargo also compares source ids; two packages in one resolved graph
never differ only by source here). -/
structure PackageId where
  name : String
  version : String
deriving DecidableEq, Repr

/-- Model of `cargo::core::dependency::DepKind`. -/
inductive DepKind where
  | Normal
  | Build
  | Development
deriving DecidableEq, Repr

/-- One declared dependency edge.  Its version requirement is modelled
extensionally by the predicate `matches` (the model of
`Dependency::matches_id`). -/
structure Dependency where
  kind : DepKind
  matches_id : PackageId → Bool

/-- A resolved package: identity, the two license metadata fields of its
manifest, the path of its `Cargo.toml`, and its declared dependency edges. -/
structure Package where
  id : PackageId
  license : Option String
  license_file : Option String
  manifest_path : FsPath
  dependencies : List Dependency

/-- Strict order on package ids: name first, then version (the order behind
cargo's `Ord` for `PackageId`). -/
def pkgIdLt (p q : PackageId) : Bool :=
  strLt p.name q.name || (p.name == q.name && strLt p.version q.version)

/-- Strict order on packages: cargo's `Ord` for `Package` compares package
ids (name, then version). -/
def pkgLt (p q : Package) : Bool := pkgIdLt p.id q.id

/-- Model of `PackageSet`: the downloaded packages of the resolved graph. -/
structure PackageSet where
  packages : List Package

/-- Model of `PackageSet::package_ids`. -/
def PackageSet.package_ids (s : PackageSet) : List PackageId :=
  s.packages.map Package.id

/-- Model of `PackageSet::get_one`: look the package up by id, an error when it is not
in the set. -/
def PackageSet.get_one (s : PackageSet) (id : PackageId) : Except String Package :=
  match s.packages.find? (fun p => p.id == id) with
  | some p => Except.ok p
  | none => Except.error "unable to find package"

/-! ## License classifier (`package_licenses`, `Licenses`) -/

/-- The contents of `Licenses::List`: a `BTreeSet<&str>` modelled as a sorted
duplicate-free list of strings. -/
abbrev StrSet := List String

/-- Model of `enum Licenses`. -/
inductive Licenses where
  | List (licenses : StrSet)
  | File (file : String)
  | Missing
deriving DecidableEq, Repr

/-- Model of `package_licenses`: split a present license expression on `"OR"`, then
`"AND"`, then `'/'`, trim each piece and collect into a `BTreeSet`; otherwise
fall back to the declared license file, then to `Missing`. -/
def package_licenses (package : Package) : Licenses :=
  match package.license with
  | some license_str =>
    let licenses : StrSet :=
      setOfList strLt
        ((((splitStr license_str "OR").flatMap (fun s => splitStr s "AND")).flatMap
          (fun s => splitStr s "/")).map trimStr)
    Licenses.List licenses
  | none =>
    match package.license_file with
    | some license_file => Licenses.File license_file
    | none => Licenses.Missing

/-! ## License file locator (`package_license_files`) -/

/-- Model of `LICENCE_FILE_NAMES`. -/
def LICENCE_FILE_NAMES : List String := ["LICENSE", "UNLICENSE", "COPYRIGHT"]

/-- The inner loop over `LICENCE_FILE_NAMES`: insert the entry's path once
for every recognized name the entry's file name starts with. -/
def insertRecognized (path : FsPath) (name : String) (result : List FsPath) :
    List FsPath :=
  LICENCE_FILE_NAMES.foldl
    (fun acc license_name =>
      if startsWithStr name license_name then
        setInsert pathLt (path ++ [OsStr.str name]) acc
      else acc)
    result

/-- The directory-scan loop of `package_license_files`: errored entries and
entries whose file name is not valid UTF-8 are skipped; an entry whose name
starts with one of the recognized names has its path inserted. -/
def scanEntries (path : FsPath) : List (Option DirEntry) → List FsPath → List FsPath
  | [], result => result
  | none :: entries, result => scanEntries path entries result
  | some entry :: entries, result =>
    match entry.file_name with
    | OsStr.raw _ => scanEntries path entries result
    | OsStr.str name => scanEntries path entries (insertRecognized path name result)

/-- Model of `package_license_files`: resolve the declared license file against the
manifest directory and keep it only when it exists; then scan the manifest
directory for recognized file names; listing failure is an I/O error. -/
def package_license_files (package : Package) (fs : Filesystem) :
    Except String (List FsPath) :=
  match pathParent package.manifest_path with
  | none => Except.error "Package manifest path missing"
  | some path =>
    let result : List FsPath :=
      match package.license_file with
      | some license_file =>
        let file := path ++ [OsStr.str license_file]
        if fs.existsFile file then setInsert pathLt file [] else []
      | none => []
    match fs.read_dir with
    | none => Except.error "could not list directory"
    | some entries => Except.ok (scanEntries path entries result)

/-! ## Dependency enumerator (`top_level_dependencies`, `all_dependencies`) -/

/-- The inner loop of `top_level_dependencies` over one member's declared
dependencies: build- and development-kind edges are skipped; for a
normal-kind edge the first matching package id is looked up and the package
inserted. -/
def tldDeps (package_ids : PackageSet) :
    List Dependency → List Package → Except String (List Package)
  | [], dependencies => Except.ok dependencies
  | dependency :: rest, dependencies =>
    match dependency.kind with
    | DepKind.Build => tldDeps package_ids rest dependencies
    | DepKind.Development => tldDeps package_ids rest dependencies
    | DepKind.Normal =>
      match package_ids.package_ids.find? (fun id => dependency.matches_id id) with
      | none => tldDeps package_ids rest dependencies
      | some dep =>
        match package_ids.get_one dep with
        | Except.error e => Except.error e
        | Except.ok package =>
          tldDeps package_ids rest (setInsert pkgLt package dependencies)

/-- The outer loop of `top_level_dependencies` over the workspace members. -/
def tldMembers (package_ids : PackageSet) :
    List Package → List Package → Except String (List Package)
  | [], dependencies => Except.ok dependencies
  | member :: rest, dependencies =>
    match tldDeps package_ids member.dependencies dependencies with
    | Except.error e => Except.error e
    | Except.ok dependencies => tldMembers package_ids rest dependencies

/-- Model of `top_level_dependencies`: gather the packages matched by the members'
normal-kind dependency declarations, then remove every workspace member from
the gathered set. -/
def top_level_dependencies (members : List Package) (package_ids : PackageSet) :
    Except String (List Package) :=
  match tldMembers package_ids members [] with
  | Except.error e => Except.error e
  | Except.ok dependencies =>
    Except.ok (members.foldl (fun acc member => setRemove pkgLt member acc) dependencies)

/-- The loop of `all_dependencies` over the resolved package ids: each
package is looked up; workspace members (`members.contains`, comparing by
package id) are skipped, the rest are inserted. -/
def allDepsGo (members : List Package) (package_ids : PackageSet) :
    List PackageId → List Package → Except String (List Package)
  | [], dependencies => Except.ok dependencies
  | package_id :: rest, dependencies =>
    match package_ids.get_one package_id with
    | Except.error e => Except.error e
    | Except.ok package =>
      if members.any (fun member => member.id == package.id) then
        allDepsGo members package_ids rest dependencies
      else
        allDepsGo members package_ids rest (setInsert pkgLt package dependencies)

/-- Model of `all_dependencies`: every package of the resolved graph except the
workspace members. -/
def all_dependencies (members : List Package) (package_ids : PackageSet)
    (resolve : List PackageId) : Except String (List Package) :=
  allDepsGo members package_ids resolve []

/-! ## License dump renderer (the second half of `real_main`) -/

/-- Model of `struct LicenseTable`: one row of the license-dump collection. -/
structure LicenseTable where
  name : String
  version : String
  license_files : List FsPath

/-- One write to the output stream performed by the license-dump loop of
`real_main`; the stream is modelled as the list of writes in order. -/
inductive WriteEvent where
  | beginMark (name version : String)
  | fileData (bytes : List Nat)
  | nextSep
  | endMark (name version : String)
deriving DecidableEq, Repr

/-- The inner file loop of the license dump: write each file's bytes, and
after a file write a `-----NEXT LICENSE-----` separator while
`licenses_to_print` is still greater than one, decrementing it each time a
separator is written. -/
def renderFilesGo (readFile : FsPath → List Nat) :
    Nat → List FsPath → List WriteEvent
  | _, [] => []
  | licenses_to_print, file :: files =>
    if licenses_to_print > 1 then
      WriteEvent.fileData (readFile file) :: WriteEvent.nextSep ::
        renderFilesGo readFile (licenses_to_print - 1) files
    else
      WriteEvent.fileData (readFile file) :: renderFilesGo readFile licenses_to_print files

/-- The license-dump output for one `LicenseTable`: nothing when its file set
is empty, otherwise a begin marker, the files interleaved with separators,
and an end marker. -/
def render_license_table (readFile : FsPath → List Nat) (t : LicenseTable) :
    List WriteEvent :=
  if t.license_files.isEmpty then []
  else
    WriteEvent.beginMark t.name t.version ::
      (renderFilesGo readFile t.license_files.length t.license_files ++
        [WriteEvent.endMark t.name t.version])

/-- The whole license-dump section: the per-table blocks in order. -/
def render_license_section (readFile : FsPath → List Nat)
    (tables : List LicenseTable) : List WriteEvent :=
  tables.flatMap (render_license_table readFile)

/-! ## Spec-side definitions

These two definitions follow the specification's words for the license
classifier, to be compared against `package_licenses` (which is translated
from the source). -/

/-- The token list named by the spec: split the expression on the boundary
tokens `OR`, `AND` and `/`, and trim whitespace from each resulting token. -/
def classifier_tokens (expr : String) : List String :=
  (((splitStr expr "OR").flatMap (fun s => splitStr s "AND")).flatMap
    (fun s => splitStr s "/")).map trimStr

/-- The identifier set claim C1 describes: the trimmed tokens with the empty
tokens discarded, collected into a set. -/
def claimed_license_set (expr : String) : StrSet :=
  setOfList strLt ((classifier_tokens expr).filter (fun t => !(t == "")))

/-- Whether a directory entry was read successfully and has a valid UTF-8
file name, so that the scan loop of `package_license_files` examines it. -/
def validEntry : Option DirEntry → Bool
  | some ⟨OsStr.str _⟩ => true
  | some ⟨OsStr.raw _⟩ => false
  | none => false

/-! ## Concrete fixtures (used by the witness and counterexample theorems) -/

/-- A package whose license expression ends in the legacy `/` separator. -/
def pkgSlash : Package :=
  { id := ⟨"p", "1.0.0"⟩, license := some "MIT/", license_file := none,
    manifest_path := [OsStr.str "p", OsStr.str "Cargo.toml"], dependencies := [] }

/-- A package declaring `MIT/Apache-2.0`. -/
def pkgSlashStyle : Package :=
  { pkgSlash with license := some "MIT/Apache-2.0" }

/-- A package declaring `Apache-2.0 OR MIT`. -/
def pkgOrStyle : Package :=
  { pkgSlash with license := some "Apache-2.0 OR MIT" }

/-- A package with both a license expression and a license-file path. -/
def pkgBothMeta : Package :=
  { pkgSlash with license := some "MIT", license_file := some "COPYING" }

/-- A package with only a license-file path. -/
def pkgFileOnly : Package :=
  { pkgSlash with license := none, license_file := some "COPYING" }

/-- A package with neither license metadata field. -/
def pkgNoMeta : Package :=
  { pkgSlash with license := none, license_file := none }

/-- A dependency declaration on a single concrete (name, version). -/
def depOn (n v : String) (k : DepKind) : Dependency :=
  ⟨k, fun id => id == ⟨n, v⟩⟩

/-- Third-party package `foo`. -/
def pkgFoo : Package :=
  { id := ⟨"foo", "1.2.0"⟩, license := some "MIT OR Apache-2.0",
    license_file := none,
    manifest_path := [OsStr.str "foo", OsStr.str "Cargo.toml"], dependencies := [] }

/-- Third-party package `bar`, a build dependency only. -/
def pkgBar : Package :=
  { id := ⟨"bar", "0.1.0"⟩, license := none, license_file := none,
    manifest_path := [OsStr.str "bar", OsStr.str "Cargo.toml"], dependencies := [] }

/-- Workspace member `wsB`, itself a dependency of `wsA`. -/
def wsB : Package :=
  { id := ⟨"wsB", "0.0.1"⟩, license := none, license_file := none,
    manifest_path := [OsStr.str "wsB", OsStr.str "Cargo.toml"], dependencies := [] }

/-- Workspace member `wsA`: depends normally on `foo` and on member `wsB`,
and on `bar` only as a build dependency. -/
def wsA : Package :=
  { id := ⟨"wsA", "0.0.1"⟩, license := none, license_file := none,
    manifest_path := [OsStr.str "wsA", OsStr.str "Cargo.toml"],
    dependencies := [depOn "foo" "1.2.0" DepKind.Normal,
                     depOn "bar" "0.1.0" DepKind.Build,
                     depOn "wsB" "0.0.1" DepKind.Normal] }

/-- The resolved package set of the fixture workspace. -/
def psetA : PackageSet := ⟨[wsA, wsB, pkgFoo, pkgBar]⟩

/-- The resolved graph's package ids for the fixture workspace. -/
def resolveA : List PackageId := [wsA.id, wsB.id, pkgFoo.id, pkgBar.id]

/-- The manifest directory of `foo` in the locator fixtures. -/
def dirFoo : FsPath := [OsStr.str "foo"]

/-- Locator fixture package: declares the (nonexistent) license file
`COPYING`. -/
def pkgLoc : Package :=
  { id := ⟨"foo", "1.2.0"⟩, license := none, license_file := some "COPYING",
    manifest_path := dirFoo ++ [OsStr.str "Cargo.toml"], dependencies := [] }

/-- The fixture directory listing: `LICENSE-MIT` and `README`, one entry
whose per-entry read fails, and one entry whose name is not valid UTF-8. -/
def entriesLoc : List (Option DirEntry) :=
  [some ⟨OsStr.str "LICENSE-MIT"⟩, none,
   some ⟨OsStr.raw 7⟩, some ⟨OsStr.str "README"⟩]

/-- Locator fixture filesystem: the manifest directory holds the entries of
`entriesLoc`; the declared `COPYING` does not exist. -/
def fsLoc : Filesystem :=
  { existsFile := fun p =>
      p == dirFoo ++ [OsStr.str "LICENSE-MIT"] ||
      p == dirFoo ++ [OsStr.str "README"] ||
      p == dirFoo ++ [OsStr.raw 7],
    read_dir := some entriesLoc }

/-- A filesystem whose directory listing fails. -/
def fsNoDir : Filesystem := { existsFile := fun _ => false, read_dir := none }

/-- A two-file license bundle. -/
def tblTwo : LicenseTable :=
  ⟨"foo", "1.2.0", [dirFoo ++ [OsStr.str "LICENSE-APACHE"], dirFoo ++ [OsStr.str "LICENSE-MIT"]]⟩

/-- A zero-file license bundle. -/
def tblZero : LicenseTable := ⟨"bar", "0.1.0", []⟩

/-- A file-content function for the renderer fixtures. -/
def readFileLoc : FsPath → List Nat := fun _ => [65, 10]

end CargoBom

namespace CargoBom

/-! ## General facts about the `BTreeSet` model -/

theorem setInsert_cons_lt {α : Type} (lt : α → α → Bool) (x y : α) (ys : List α)
    (h : lt x y = true) : setInsert lt x (y :: ys) = x :: y :: ys := by
  simp [setInsert, h]

theorem setInsert_cons_gt {α : Type} (lt : α → α → Bool) (x y : α) (ys : List α)
    (h1 : lt x y = false) (h2 : lt y x = true) :
    setInsert lt x (y :: ys) = y :: setInsert lt x ys := by
  simp [setInsert, h1, h2]

theorem setInsert_cons_eq {α : Type} (lt : α → α → Bool) (x y : α) (ys : List α)
    (h1 : lt x y = false) (h2 : lt y x = false) :
    setInsert lt x (y :: ys) = y :: ys := by
  simp [setInsert, h1, h2]

theorem mem_setInsert {α : Type} (lt : α → α → Bool) (x z : α) (l : List α)
    (h : z ∈ setInsert lt x l) : z = x ∨ z ∈ l := by
  induction l with
  | nil => simpa [setInsert] using h
  | cons y ys ih =>
    cases h1 : lt x y with
    | true =>
      rw [setInsert_cons_lt lt x y ys h1] at h
      simpa using List.mem_cons.mp h
    | false =>
      cases h2 : lt y x with
      | true =>
        rw [setInsert_cons_gt lt x y ys h1 h2] at h
        rcases List.mem_cons.mp h with h' | h'
        · exact Or.inr (by simp [h'])
        · rcases ih h' with h'' | h''
          · exact Or.inl h''
          · exact Or.inr (List.mem_cons_of_mem _ h'')
      | false =>
        rw [setInsert_cons_eq lt x y ys h1 h2] at h
        exact Or.inr h

theorem mem_setInsert_of_mem {α : Type} (lt : α → α → Bool) (x z : α) (l : List α)
    (h : z ∈ l) : z ∈ setInsert lt x l := by
  induction l with
  | nil => cases h
  | cons y ys ih =>
    cases h1 : lt x y with
    | true =>
      rw [setInsert_cons_lt lt x y ys h1]
      exact List.mem_cons_of_mem _ h
    | false =>
      cases h2 : lt y x with
      | true =>
        rw [setInsert_cons_gt lt x y ys h1 h2]
        rcases List.mem_cons.mp h with h' | h'
        · exact h' ▸ List.mem_cons_self _ _
        · exact List.mem_cons_of_mem _ (ih h')
      | false =>
        rw [setInsert_cons_eq lt x y ys h1 h2]
        exact h

theorem self_mem_setInsert {α : Type} (lt : α → α → Bool)
    (hconn : ∀ a b, lt a b = false → lt b a = false → a = b)
    (x : α) (l : List α) : x ∈ setInsert lt x l := by
  induction l with
  | nil => simp [setInsert]
  | cons y ys ih =>
    cases h1 : lt x y with
    | true =>
      rw [setInsert_cons_lt lt x y ys h1]
      exact List.mem_cons_self _ _
    | false =>
      cases h2 : lt y x with
      | true =>
        rw [setInsert_cons_gt lt x y ys h1 h2]
        exact List.mem_cons_of_mem _ ih
      | false =>
        rw [setInsert_cons_eq lt x y ys h1 h2]
        rw [hconn x y h1 h2]
        exact List.mem_cons_self _ _

theorem sorted_setInsert {α : Type} (lt : α → α → Bool)
    (htrans : ∀ a b c, lt a b = true → lt b c = true → lt a c = true)
    (x : α) (l : List α) (hs : l.Pairwise (fun a b => lt a b = true)) :
    (setInsert lt x l).Pairwise (fun a b => lt a b = true) := by
  induction l with
  | nil => simp [setInsert]
  | cons y ys ih =>
    rcases List.pairwise_cons.mp hs with ⟨hy, hys⟩
    cases h1 : lt x y with
    | true =>
      rw [setInsert_cons_lt lt x y ys h1]
      refine List.pairwise_cons.mpr ⟨?_, hs⟩
      intro z hz
      rcases List.mem_cons.mp hz with h' | h'
      · exact h' ▸ h1
      · exact htrans x y z h1 (hy z h')
    | false =>
      cases h2 : lt y x with
      | true =>
        rw [setInsert_cons_gt lt x y ys h1 h2]
        refine List.pairwise_cons.mpr ⟨?_, ih hys⟩
        intro z hz
        rcases mem_setInsert lt x z ys hz with h' | h'
        · exact h' ▸ h2
        · exact hy z h'
      | false =>
        rw [setInsert_cons_eq lt x y ys h1 h2]
        exact hs

theorem nodup_of_sorted {α : Type} (lt : α → α → Bool)
    (hirr : ∀ a, lt a a = false)
    (l : List α) (hs : l.Pairwise (fun a b => lt a b = true)) : l.Nodup := by
  refine hs.imp ?_
  intro a b hab
  intro h
  subst h
  rw [hirr a] at hab
  exact Bool.false_ne_true hab

theorem mem_setOfList {α : Type} (lt : α → α → Bool)
    (hconn : ∀ a b, lt a b = false → lt b a = false → a = b)
    (l : List α) (z : α) : z ∈ setOfList lt l ↔ z ∈ l := by
  suffices h : ∀ (l acc : List α), z ∈ l.foldl (fun acc a => setInsert lt a acc) acc ↔
      z ∈ acc ∨ z ∈ l by
    have := h l []
    simpa [setOfList] using this
  intro l
  induction l with
  | nil => simp
  | cons a as ih =>
    intro acc
    simp only [List.foldl_cons, ih, List.mem_cons]
    constructor
    · rintro (h | h)
      · rcases mem_setInsert lt a z acc h with h' | h'
        · exact Or.inr (Or.inl h')
        · exact Or.inl h'
      · exact Or.inr (Or.inr h)
    · rintro (h | h | h)
      · exact Or.inl (mem_setInsert_of_mem lt a z acc h)
      · subst h
        exact Or.inl (self_mem_setInsert lt hconn z acc)
      · exact Or.inr h

theorem sorted_setOfList {α : Type} (lt : α → α → Bool)
    (htrans : ∀ a b c, lt a b = true → lt b c = true → lt a c = true)
    (l : List α) : (setOfList lt l).Pairwise (fun a b => lt a b = true) := by
  suffices h : ∀ (l acc : List α), acc.Pairwise (fun a b => lt a b = true) →
      (l.foldl (fun acc a => setInsert lt a acc) acc).Pairwise (fun a b => lt a b = true) by
    exact h l [] (by simp)
  intro l
  induction l with
  | nil => intro acc h; simpa using h
  | cons a as ih =>
    intro acc h
    exact ih _ (sorted_setInsert lt htrans a acc h)

/-! ## Order laws for the concrete comparisons -/

theorem charLt_irrefl (c : Char) : charLt c c = false := by
  simp [charLt]

theorem charLt_trans (a b c : Char) (h1 : charLt a b = true) (h2 : charLt b c = true) :
    charLt a c = true := by
  simp only [charLt, decide_eq_true_eq] at *
  exact lt_trans h1 h2

theorem charLt_conn (a b : Char) (h1 : charLt a b = false) (h2 : charLt b a = false) :
    a = b := by
  simp only [charLt, decide_eq_false_iff_not, not_lt] at h1 h2
  exact le_antisymm h2 h1

theorem charListLt_irrefl (l : List Char) : charListLt l l = false := by
  induction l with
  | nil => rfl
  | cons c cs ih => simp [charListLt, charLt_irrefl, ih]

theorem charListLt_trans (a b c : List Char) (h1 : charListLt a b = true)
    (h2 : charListLt b c = true) : charListLt a c = true := by
  induction a generalizing b c with
  | nil =>
    cases b with
    | nil => simp [charListLt] at h1
    | cons y ys =>
      cases c with
      | nil => simp [charListLt] at h2
      | cons z zs => simp [charListLt]
  | cons x xs ih =>
    cases b with
    | nil => simp [charListLt] at h1
    | cons y ys =>
      cases c with
      | nil => simp [charListLt] at h2
      | cons z zs =>
        simp only [charListLt, Bool.or_eq_true, Bool.and_eq_true, beq_iff_eq] at h1 h2 ⊢
        rcases h1 with h1 | ⟨rfl, h1⟩
        · rcases h2 with h2 | ⟨rfl, h2⟩
          · exact Or.inl (charLt_trans x y z h1 h2)
          · exact Or.inl h1
        · rcases h2 with h2 | ⟨rfl, h2⟩
          · exact Or.inl h2
          · exact Or.inr ⟨rfl, ih ys zs h1 h2⟩

theorem charListLt_conn (a b : List Char) (h1 : charListLt a b = false)
    (h2 : charListLt b a = false) : a = b := by
  induction a generalizing b with
  | nil =>
    cases b with
    | nil => rfl
    | cons y ys => simp [charListLt] at h1
  | cons x xs ih =>
    cases b with
    | nil => simp [charListLt] at h2
    | cons y ys =>
      simp only [charListLt, Bool.or_eq_false_iff, Bool.and_eq_false_iff] at h1 h2
      rcases h1 with ⟨hxy, h1⟩
      rcases h2 with ⟨hyx, h2⟩
      have hxy' : x = y := charLt_conn x y hxy hyx
      subst hxy'
      rcases h1 with h1 | h1
      · simp at h1
      rcases h2 with h2 | h2
      · simp at h2
      rw [ih ys h1 h2]

theorem strLt_irrefl (s : String) : strLt s s = false := by
  simp [strLt, charListLt_irrefl]

theorem strLt_trans (a b c : String) (h1 : strLt a b = true) (h2 : strLt b c = true) :
    strLt a c = true :=
  charListLt_trans a.data b.data c.data h1 h2

theorem strLt_conn (a b : String) (h1 : strLt a b = false) (h2 : strLt b a = false) :
    a = b := by
  cases a with
  | mk la =>
    cases b with
    | mk lb =>
      have : la = lb := charListLt_conn la lb h1 h2
      rw [this]

theorem osLt_irrefl (a : OsStr) : osLt a a = false := by
  cases a with
  | str s => simpa [osLt] using strLt_irrefl s
  | raw k => simp [osLt]

theorem osLt_trans (a b c : OsStr) (h1 : osLt a b = true) (h2 : osLt b c = true) :
    osLt a c = true := by
  cases a <;> cases b <;> cases c <;> simp_all [osLt]
  · exact strLt_trans _ _ _ h1 h2
  · omega

theorem osLt_conn (a b : OsStr) (h1 : osLt a b = false) (h2 : osLt b a = false) :
    a = b := by
  cases a <;> cases b <;> simp_all [osLt]
  · exact strLt_conn _ _ h1 h2
  · omega

theorem pathLt_irrefl (l : FsPath) : pathLt l l = false := by
  induction l with
  | nil => rfl
  | cons a as ih => simp [pathLt, osLt_irrefl, ih]

theorem pathLt_trans (a b c : FsPath) (h1 : pathLt a b = true)
    (h2 : pathLt b c = true) : pathLt a c = true := by
  induction a generalizing b c with
  | nil =>
    cases b with
    | nil => simp [pathLt] at h1
    | cons y ys =>
      cases c with
      | nil => simp [pathLt] at h2
      | cons z zs => simp [pathLt]
  | cons x xs ih =>
    cases b with
    | nil => simp [pathLt] at h1
    | cons y ys =>
      cases c with
      | nil => simp [pathLt] at h2
      | cons z zs =>
        simp only [pathLt, Bool.or_eq_true, Bool.and_eq_true, beq_iff_eq] at h1 h2 ⊢
        rcases h1 with h1 | ⟨rfl, h1⟩
        · rcases h2 with h2 | ⟨rfl, h2⟩
          · exact Or.inl (osLt_trans x y z h1 h2)
          · exact Or.inl h1
        · rcases h2 with h2 | ⟨rfl, h2⟩
          · exact Or.inl h2
          · exact Or.inr ⟨rfl, ih ys zs h1 h2⟩

theorem pathLt_conn (a b : FsPath) (h1 : pathLt a b = false)
    (h2 : pathLt b a = false) : a = b := by
  induction a generalizing b with
  | nil =>
    cases b with
    | nil => rfl
    | cons y ys => simp [pathLt] at h1
  | cons x xs ih =>
    cases b with
    | nil => simp [pathLt] at h2
    | cons y ys =>
      simp only [pathLt, Bool.or_eq_false_iff, Bool.and_eq_false_iff] at h1 h2
      rcases h1 with ⟨hxy, h1⟩
      rcases h2 with ⟨hyx, h2⟩
      have hxy' : x = y := osLt_conn x y hxy hyx
      subst hxy'
      rcases h1 with h1 | h1
      · simp at h1
      rcases h2 with h2 | h2
      · simp at h2
      rw [ih ys h1 h2]

theorem pkgIdLt_irrefl (p : PackageId) : pkgIdLt p p = false := by
  simp [pkgIdLt, strLt_irrefl]

/-- Two packages with the same id compare equal under cargo's order. -/
theorem pkgLt_eq_false_of_id_eq (p q : Package) (h : p.id = q.id) :
    pkgLt p q = false := by
  simp [pkgLt, h, pkgIdLt_irrefl]

theorem mem_setRemove {α : Type} (lt : α → α → Bool) (x z : α) (l : List α) :
    z ∈ setRemove lt x l ↔ z ∈ l ∧ (lt x z || lt z x) = true := by
  simp [setRemove, List.mem_filter]

theorem mem_foldl_setRemove {α : Type} (lt : α → α → Bool) (z : α)
    (ms l : List α) :
    z ∈ ms.foldl (fun acc m => setRemove lt m acc) l ↔
      z ∈ l ∧ ∀ m ∈ ms, (lt m z || lt z m) = true := by
  induction ms generalizing l with
  | nil => simp
  | cons m ms ih =>
    simp only [List.foldl_cons, ih, mem_setRemove, List.mem_cons]
    constructor
    · rintro ⟨⟨hz, hm⟩, hrest⟩
      refine ⟨hz, ?_⟩
      intro m' hm'
      rcases hm' with h | h
      · subst h; exact hm
      · exact hrest m' h
    · rintro ⟨hz, hall⟩
      exact ⟨⟨hz, hall m (Or.inl rfl)⟩, fun m' h => hall m' (Or.inr h)⟩

/-! ## Facts about the locator's directory scan -/

theorem mem_prefixFold (ps : List String) (path : FsPath) (name : String)
    (acc : List FsPath) (z : FsPath) :
    (z ∈ ps.foldl
        (fun acc license_name =>
          if startsWithStr name license_name then
            setInsert pathLt (path ++ [OsStr.str name]) acc
          else acc)
        acc) ↔
      z ∈ acc ∨ (z = path ++ [OsStr.str name] ∧
        ∃ pre ∈ ps, startsWithStr name pre = true) := by
  induction ps generalizing acc with
  | nil => simp
  | cons q qs ih =>
    rw [List.foldl_cons]
    by_cases hq : startsWithStr name q = true
    · rw [if_pos hq, ih]
      constructor
      · rintro (h | ⟨rfl, pre, hpre, hsw⟩)
        · rcases mem_setInsert pathLt _ z acc h with rfl | h'
          · exact Or.inr ⟨rfl, q, List.mem_cons_self _ _, hq⟩
          · exact Or.inl h'
        · exact Or.inr ⟨rfl, pre, List.mem_cons_of_mem _ hpre, hsw⟩
      · rintro (h | ⟨rfl, _⟩)
        · exact Or.inl (mem_setInsert_of_mem pathLt _ z acc h)
        · exact Or.inl (self_mem_setInsert pathLt pathLt_conn _ acc)
    · rw [if_neg hq, ih]
      constructor
      · rintro (h | ⟨rfl, pre, hpre, hsw⟩)
        · exact Or.inl h
        · exact Or.inr ⟨rfl, pre, List.mem_cons_of_mem _ hpre, hsw⟩
      · rintro (h | ⟨rfl, pre, hpre, hsw⟩)
        · exact Or.inl h
        · rcases List.mem_cons.mp hpre with rfl | hpre'
          · exact absurd hsw hq
          · exact Or.inr ⟨rfl, pre, hpre', hsw⟩

theorem mem_insertRecognized (path : FsPath) (name : String) (acc : List FsPath)
    (z : FsPath) :
    z ∈ insertRecognized path name acc ↔
      z ∈ acc ∨ (z = path ++ [OsStr.str name] ∧
        ∃ pre ∈ LICENCE_FILE_NAMES, startsWithStr name pre = true) :=
  mem_prefixFold LICENCE_FILE_NAMES path name acc z

theorem sorted_prefixFold (ps : List String) (path : FsPath) (name : String)
    (acc : List FsPath) (h : acc.Pairwise (fun a b => pathLt a b = true)) :
    (ps.foldl
        (fun acc license_name =>
          if startsWithStr name license_name then
            setInsert pathLt (path ++ [OsStr.str name]) acc
          else acc)
        acc).Pairwise (fun a b => pathLt a b = true) := by
  induction ps generalizing acc with
  | nil => simpa using h
  | cons q qs ih =>
    rw [List.foldl_cons]
    by_cases hq : startsWithStr name q = true
    · rw [if_pos hq]
      exact ih _ (sorted_setInsert pathLt pathLt_trans _ acc h)
    · rw [if_neg hq]
      exact ih _ h

theorem sorted_insertRecognized (path : FsPath) (name : String) (acc : List FsPath)
    (h : acc.Pairwise (fun a b => pathLt a b = true)) :
    (insertRecognized path name acc).Pairwise (fun a b => pathLt a b = true) :=
  sorted_prefixFold LICENCE_FILE_NAMES path name acc h

theorem mem_scanEntries (path : FsPath) (entries : List (Option DirEntry))
    (acc : List FsPath) (z : FsPath) :
    z ∈ scanEntries path entries acc ↔
      z ∈ acc ∨ ∃ name : String, some (DirEntry.mk (OsStr.str name)) ∈ entries ∧
        z = path ++ [OsStr.str name] ∧
        ∃ pre ∈ LICENCE_FILE_NAMES, startsWithStr name pre = true := by
  induction entries generalizing acc with
  | nil => simp [scanEntries]
  | cons e es ih =>
    cases e with
    | none =>
      rw [show scanEntries path (none :: es) acc = scanEntries path es acc from rfl, ih]
      simp
    | some entry =>
      cases entry with
      | mk fname =>
        cases fname with
        | raw k =>
          rw [show scanEntries path (some ⟨OsStr.raw k⟩ :: es) acc =
                scanEntries path es acc from rfl, ih]
          simp
        | str nm =>
          rw [show scanEntries path (some ⟨OsStr.str nm⟩ :: es) acc =
                scanEntries path es (insertRecognized path nm acc) from rfl, ih,
              mem_insertRecognized]
          constructor
          · rintro ((h | ⟨rfl, hex⟩) | ⟨name, hmem, rfl, hex⟩)
            · exact Or.inl h
            · exact Or.inr ⟨nm, List.mem_cons_self _ _, rfl, hex⟩
            · exact Or.inr ⟨name, List.mem_cons_of_mem _ hmem, rfl, hex⟩
          · rintro (h | ⟨name, hmem, rfl, hex⟩)
            · exact Or.inl (Or.inl h)
            · rcases List.mem_cons.mp hmem with heq | hmem'
              · have : name = nm := by
                  simpa using heq
                subst this
                exact Or.inl (Or.inr ⟨rfl, hex⟩)
              · exact Or.inr ⟨name, hmem', rfl, hex⟩

theorem sorted_scanEntries (path : FsPath) (entries : List (Option DirEntry))
    (acc : List FsPath) (h : acc.Pairwise (fun a b => pathLt a b = true)) :
    (scanEntries path entries acc).Pairwise (fun a b => pathLt a b = true) := by
  induction entries generalizing acc with
  | nil => simpa [scanEntries] using h
  | cons e es ih =>
    cases e with
    | none => exact ih acc h
    | some entry =>
      cases entry with
      | mk fname =>
        cases fname with
        | raw k => exact ih acc h
        | str nm => exact ih _ (sorted_insertRecognized path nm acc h)

theorem scanEntries_filter_valid (path : FsPath) (entries : List (Option DirEntry))
    (acc : List FsPath) :
    scanEntries path (entries.filter validEntry) acc = scanEntries path entries acc := by
  induction entries generalizing acc with
  | nil => rfl
  | cons e es ih =>
    cases e with
    | none =>
      rw [show (none :: es).filter validEntry = es.filter validEntry from by
            simp [List.filter_cons, validEntry]]
      exact ih acc
    | some entry =>
      cases entry with
      | mk fname =>
        cases fname with
        | raw k =>
          rw [show (some ⟨OsStr.raw k⟩ :: es).filter validEntry = es.filter validEntry from by
                simp [List.filter_cons, validEntry]]
          exact ih acc
        | str nm =>
          rw [show (some ⟨OsStr.str nm⟩ :: es).filter validEntry =
                some ⟨OsStr.str nm⟩ :: es.filter validEntry from by
                simp [List.filter_cons, validEntry]]
          rw [show scanEntries path (some ⟨OsStr.str nm⟩ :: es.filter validEntry) acc =
                scanEntries path (es.filter validEntry) (insertRecognized path nm acc) from rfl]
          rw [show scanEntries path (some ⟨OsStr.str nm⟩ :: es) acc =
                scanEntries path es (insertRecognized path nm acc) from rfl]
          exact ih _

theorem raw_not_mem_scanEntries (dir : FsPath) (entries : List (Option DirEntry))
    (res0 : List FsPath) (hres0 : ∀ z ∈ res0, ∃ s : String, z = dir ++ [OsStr.str s])
    (k : Nat) : dir ++ [OsStr.raw k] ∉ scanEntries dir entries res0 := by
  intro hmem
  rcases (mem_scanEntries dir entries res0 _).mp hmem with h | ⟨name, _, heq, _⟩
  · rcases hres0 _ h with ⟨s, hs⟩
    have := congrArg List.getLast? hs
    simp at this
  · have := congrArg List.getLast? heq
    simp at this

/-! ## Facts about the dependency enumerator -/

theorem tldDeps_mem (pset : PackageSet) (ds : List Dependency) (acc out : List Package)
    (h : tldDeps pset ds acc = Except.ok out) (p : Package) (hp : p ∈ out) :
    p ∈ acc ∨ ∃ d ∈ ds, d.kind = DepKind.Normal ∧ d.matches_id p.id = true := by
  induction ds generalizing acc with
  | nil =>
    simp only [tldDeps, Except.ok.injEq] at h
    subst h
    exact Or.inl hp
  | cons d ds ih =>
    cases hk : d.kind with
    | Build =>
      simp only [tldDeps, hk] at h
      rcases ih acc h with h' | ⟨d', hd', hk', hm⟩
      · exact Or.inl h'
      · exact Or.inr ⟨d', List.mem_cons_of_mem _ hd', hk', hm⟩
    | Development =>
      simp only [tldDeps, hk] at h
      rcases ih acc h with h' | ⟨d', hd', hk', hm⟩
      · exact Or.inl h'
      · exact Or.inr ⟨d', List.mem_cons_of_mem _ hd', hk', hm⟩
    | Normal =>
      simp only [tldDeps, hk] at h
      split at h
      next hf =>
        rcases ih acc h with h' | ⟨d', hd', hk', hm⟩
        · exact Or.inl h'
        · exact Or.inr ⟨d', List.mem_cons_of_mem _ hd', hk', hm⟩
      next dep hf =>
        split at h
        next e hg => simp at h
        next package hg =>
          rcases ih _ h with h' | ⟨d', hd', hk', hm⟩
          · rcases mem_setInsert pkgLt package p acc h' with rfl | h''
            · have h1 : d.matches_id dep = true := List.find?_some hf
              have h2 : p.id = dep := by
                simp only [PackageSet.get_one] at hg
                split at hg
                next q hf2 =>
                  simp only [Except.ok.injEq] at hg
                  subst hg
                  simpa using List.find?_some hf2
                next hf2 => simp at hg
              exact Or.inr ⟨d, List.mem_cons_self _ _, hk, by rw [h2]; exact h1⟩
            · exact Or.inl h''
          · exact Or.inr ⟨d', List.mem_cons_of_mem _ hd', hk', hm⟩

theorem tldMembers_mem (pset : PackageSet) (ms : List Package) (acc out : List Package)
    (h : tldMembers pset ms acc = Except.ok out) (p : Package) (hp : p ∈ out) :
    p ∈ acc ∨ ∃ m ∈ ms, ∃ d ∈ m.dependencies,
      d.kind = DepKind.Normal ∧ d.matches_id p.id = true := by
  induction ms generalizing acc with
  | nil =>
    simp only [tldMembers, Except.ok.injEq] at h
    subst h
    exact Or.inl hp
  | cons m ms ih =>
    simp only [tldMembers] at h
    cases ht : tldDeps pset m.dependencies acc with
    | error e => rw [ht] at h; simp at h
    | ok acc2 =>
      rw [ht] at h
      rcases ih acc2 h with h' | ⟨m', hm', rest⟩
      · rcases tldDeps_mem pset m.dependencies acc acc2 ht p h' with h'' | ⟨d, hd, hk, hmm⟩
        · exact Or.inl h''
        · exact Or.inr ⟨m, List.mem_cons_self _ _, d, hd, hk, hmm⟩
      · exact Or.inr ⟨m', List.mem_cons_of_mem _ hm', rest⟩

theorem allDepsGo_not_member (members : List Package) (pset : PackageSet)
    (ids : List PackageId) (acc out : List Package)
    (hacc : ∀ p ∈ acc, ∀ m ∈ members, p.id ≠ m.id)
    (h : allDepsGo members pset ids acc = Except.ok out) :
    ∀ p ∈ out, ∀ m ∈ members, p.id ≠ m.id := by
  induction ids generalizing acc with
  | nil =>
    simp only [allDepsGo, Except.ok.injEq] at h
    subst h
    exact hacc
  | cons pid pids ih =>
    simp only [allDepsGo] at h
    split at h
    next e hg => simp at h
    next package hg =>
      by_cases hc : members.any (fun member => member.id == package.id) = true
      · rw [if_pos hc] at h
        exact ih acc hacc h
      · rw [if_neg hc] at h
        refine ih _ ?_ h
        intro p hp m hm
        rcases mem_setInsert pkgLt package p acc hp with rfl | hp'
        · intro heq
          apply hc
          rw [List.any_eq_true]
          exact ⟨m, hm, by rw [beq_iff_eq]; exact heq.symm⟩
        · exact hacc p hp' m hm

/-! ## Facts about the license-dump renderer -/

theorem renderFilesGo_count (readFile : FsPath → List Nat) (files : List FsPath)
    (n : Nat) :
    (renderFilesGo readFile n files).count WriteEvent.nextSep =
      min (n - 1) files.length := by
  induction files generalizing n with
  | nil => simp [renderFilesGo]
  | cons f fs ih =>
    by_cases hn : n > 1
    · rw [show renderFilesGo readFile n (f :: fs) =
            WriteEvent.fileData (readFile f) :: WriteEvent.nextSep ::
              renderFilesGo readFile (n - 1) fs from by simp [renderFilesGo, hn]]
      rw [List.count_cons, List.count_cons, ih]
      simp only [List.length_cons, beq_self_eq_true, if_true]
      have : (WriteEvent.fileData (readFile f) == WriteEvent.nextSep) = false := by
        simp
      rw [this]
      simp only [Bool.false_eq_true, if_false]
      omega
    · rw [show renderFilesGo readFile n (f :: fs) =
            WriteEvent.fileData (readFile f) :: renderFilesGo readFile n fs from by
              simp [renderFilesGo, hn]]
      rw [List.count_cons, ih]
      have : (WriteEvent.fileData (readFile f) == WriteEvent.nextSep) = false := by
        simp
      rw [this]
      simp only [Bool.false_eq_true, if_false, List.length_cons]
      omega

/-- With a license expression present, `package_licenses` collects the split
tokens into a set. -/
theorem package_licenses_some (p : Package) (expr : String)
    (h : p.license = some expr) :
    package_licenses p = Licenses.List (setOfList strLt (classifier_tokens expr)) := by
  simp [package_licenses, h, classifier_tokens]

/-! ## The claims -/

/-- C1 (amended): for every dependency whose declared license expression is
present, the classifier returns `Identifiers` holding exactly the tokens of
the expression split on `OR`, `AND` and `/` and trimmed — including any empty
tokens, which the code does not discard — collected into a set (sorted,
duplicate-free). -/
theorem C1_split_trim_collect (p : Package) (expr : String)
    (h : p.license = some expr) :
    ∃ l : StrSet, package_licenses p = Licenses.List l ∧
      (∀ x : String, x ∈ l ↔ x ∈ classifier_tokens expr) ∧
      l.Pairwise (fun a b => strLt a b = true) ∧ l.Nodup := by
  refine ⟨setOfList strLt (classifier_tokens expr), package_licenses_some p expr h,
    ?_, ?_, ?_⟩
  · intro x
    exact mem_setOfList strLt strLt_conn _ x
  · exact sorted_setOfList strLt strLt_trans _
  · exact nodup_of_sorted strLt strLt_irrefl _ (sorted_setOfList strLt strLt_trans _)

/-- C1, witness: the amended claim instantiated at the expression `MIT/`. -/
theorem C1_split_trim_collect_witness :
    ∃ l : StrSet, package_licenses pkgSlash = Licenses.List l ∧
      (∀ x : String, x ∈ l ↔ x ∈ classifier_tokens "MIT/") ∧
      l.Pairwise (fun a b => strLt a b = true) ∧ l.Nodup :=
  C1_split_trim_collect pkgSlash "MIT/" rfl

/-- C1, counterexample: on the expression `MIT/` the code keeps the empty
token produced by the trailing separator, so the produced set is
`{"", "MIT"}` and differs from the claimed set with empty tokens discarded,
which is `{"MIT"}`. -/
theorem C1_empty_token_kept :
    pkgSlash.license = some "MIT/" ∧
    package_licenses pkgSlash = Licenses.List ["", "MIT"] ∧
    claimed_license_set "MIT/" = ["MIT"] ∧
    package_licenses pkgSlash ≠ Licenses.List (claimed_license_set "MIT/") := by
  decide

/-- C2: the expressions `MIT/Apache-2.0` and `Apache-2.0 OR MIT` both
classify to the identifier set `{Apache-2.0, MIT}`: the result is independent
of operand order and of which separator (`OR` vs `/`) is used. -/
theorem C2_separator_order_independent :
    package_licenses pkgSlashStyle = Licenses.List ["Apache-2.0", "MIT"] ∧
    package_licenses pkgOrStyle = Licenses.List ["Apache-2.0", "MIT"] ∧
    package_licenses pkgSlashStyle = package_licenses pkgOrStyle := by
  decide

/-- C3: the classifier returns exactly one variant, by precedence: a present
license expression wins (even when a license-file path is also present),
otherwise a present license-file path gives `DeclaredFile`, otherwise
`Missing`. -/
theorem C3_variant_precedence (p : Package) :
    (∀ expr : String, p.license = some expr →
      ∃ l : StrSet, package_licenses p = Licenses.List l) ∧
    (p.license = none → ∀ f : String, p.license_file = some f →
      package_licenses p = Licenses.File f) ∧
    (p.license = none → p.license_file = none →
      package_licenses p = Licenses.Missing) := by
  refine ⟨?_, ?_, ?_⟩
  · intro expr h
    exact ⟨_, package_licenses_some p expr h⟩
  · intro h1 f h2
    simp [package_licenses, h1, h2]
  · intro h1 h2
    simp [package_licenses, h1, h2]

/-- C3, witness: the three precedence cases at concrete packages, including
a package carrying both metadata fields. -/
theorem C3_variant_precedence_witness :
    (∃ l : StrSet, package_licenses pkgBothMeta = Licenses.List l) ∧
    package_licenses pkgFileOnly = Licenses.File "COPYING" ∧
    package_licenses pkgNoMeta = Licenses.Missing :=
  ⟨(C3_variant_precedence pkgBothMeta).1 "MIT" rfl,
   (C3_variant_precedence pkgFileOnly).2.1 rfl "COPYING" rfl,
   (C3_variant_precedence pkgNoMeta).2.2 rfl rfl⟩

/-- C4: neither enumerator mode ever outputs a workspace member — every
output package's id differs from every member's id, even when a member is
also a (transitive) dependency of another member. -/
theorem C4_members_excluded (members : List Package) (pset : PackageSet)
    (resolve : List PackageId) (m : Package) (hm : m ∈ members) :
    (∀ out, top_level_dependencies members pset = Except.ok out →
      ∀ p ∈ out, p.id ≠ m.id) ∧
    (∀ out, all_dependencies members pset resolve = Except.ok out →
      ∀ p ∈ out, p.id ≠ m.id) := by
  constructor
  · intro out h p hp heq
    simp only [top_level_dependencies] at h
    split at h
    next e ht => simp at h
    next deps ht =>
      simp only [Except.ok.injEq] at h
      subst h
      have hdiff := ((mem_foldl_setRemove pkgLt p members deps).mp hp).2 m hm
      rw [pkgLt_eq_false_of_id_eq m p heq.symm, pkgLt_eq_false_of_id_eq p m heq] at hdiff
      simp at hdiff
  · intro out h p hp
    exact allDepsGo_not_member members pset resolve [] out (by simp) h p hp m hm

/-- C4, witness: in the fixture workspace, member `wsB` is a normal
dependency of member `wsA`, and both modes still exclude the members: the
only top-level output is `foo`, and the all-mode outputs `bar` and `foo`. -/
theorem C4_members_excluded_witness :
    pkgFoo.id ≠ wsB.id ∧ pkgFoo.id ≠ wsA.id :=
  ⟨(C4_members_excluded [wsA, wsB] psetA resolveA wsB (by simp)).1
      [pkgFoo] rfl pkgFoo (by simp),
   (C4_members_excluded [wsA, wsB] psetA resolveA wsA (by simp)).2
      [pkgBar, pkgFoo] rfl pkgFoo (by simp)⟩

/-- C5: every package in the top-level-only output is matched by a direct
normal-kind dependency declaration of some workspace member; contrapositively
a package reachable only through build- or development-kind edges is never
output. -/
theorem C5_top_level_normal_only (members : List Package) (pset : PackageSet)
    (out : List Package) (h : top_level_dependencies members pset = Except.ok out)
    (p : Package) (hp : p ∈ out) :
    ∃ m ∈ members, ∃ d ∈ m.dependencies,
      d.kind = DepKind.Normal ∧ d.matches_id p.id = true := by
  simp only [top_level_dependencies] at h
  split at h
  next e ht => simp at h
  next deps ht =>
    simp only [Except.ok.injEq] at h
    subst h
    have hdeps := ((mem_foldl_setRemove pkgLt p members deps).mp hp).1
    rcases tldMembers_mem pset members [] deps ht p hdeps with h'' | hres
    · cases h''
    · exact hres

/-- C5, witness: in the fixture workspace the only top-level output is
`foo`, and it is indeed matched by a normal-kind declaration of a member
(while `bar`, a build dependency, is absent from the output `[pkgFoo]`). -/
theorem C5_top_level_normal_only_witness :
    ∃ m ∈ [wsA, wsB], ∃ d ∈ m.dependencies,
      d.kind = DepKind.Normal ∧ d.matches_id pkgFoo.id = true :=
  C5_top_level_normal_only [wsA, wsB] psetA [pkgFoo] rfl pkgFoo (by simp)

/-- When the manifest directory listing succeeds, `package_license_files`
returns the scan of the listing seeded with an initial set that holds at most
the declared license file; that seed consists of UTF-8-named paths, is
sorted, and does not depend on the listing. -/
theorem plf_ok_shape (package : Package) (fs : Filesystem) (dir : FsPath)
    (entries : List (Option DirEntry))
    (hdir : pathParent package.manifest_path = some dir)
    (hrd : fs.read_dir = some entries) :
    ∃ res0 : List FsPath,
      package_license_files package fs = Except.ok (scanEntries dir entries res0) ∧
      (∀ z ∈ res0, ∃ s : String, z = dir ++ [OsStr.str s]) ∧
      res0.Pairwise (fun a b => pathLt a b = true) ∧
      (∀ g : Filesystem, g.existsFile = fs.existsFile →
        g.read_dir = some (entries.filter validEntry) →
        package_license_files package g =
          Except.ok (scanEntries dir (entries.filter validEntry) res0)) := by
  cases hl : package.license_file with
  | none =>
    refine ⟨[], ?_, by simp, by simp, ?_⟩
    · simp [package_license_files, hdir, hl, hrd]
    · intro g hge hgr
      simp [package_license_files, hdir, hl, hgr]
  | some lf =>
    cases hex : fs.existsFile (dir ++ [OsStr.str lf]) with
    | true =>
      refine ⟨[dir ++ [OsStr.str lf]], ?_, ?_, by simp, ?_⟩
      · simp [package_license_files, hdir, hl, hrd, hex, setInsert]
      · intro z hz
        rw [List.mem_singleton] at hz
        exact ⟨lf, hz⟩
      · intro g hge hgr
        simp [package_license_files, hdir, hl, hgr, hge, hex, setInsert]
    | false =>
      refine ⟨[], ?_, by simp, by simp, ?_⟩
      · simp [package_license_files, hdir, hl, hrd, hex]
      · intro g hge hgr
        simp [package_license_files, hdir, hl, hgr, hge, hex]

/-- C6: a declared license-file path that does not exist on disk (on a
filesystem whose listed entries do exist) is absent from the locator's
result, and the locator still succeeds. -/
theorem C6_nonexistent_declared_dropped (package : Package) (fs : Filesystem)
    (dir : FsPath) (lf : String) (entries : List (Option DirEntry))
    (hdir : pathParent package.manifest_path = some dir)
    (hlf : package.license_file = some lf)
    (hex : fs.existsFile (dir ++ [OsStr.str lf]) = false)
    (hrd : fs.read_dir = some entries)
    (hfs : ∀ e ∈ entries, ∀ d : DirEntry, e = some d →
      fs.existsFile (dir ++ [d.file_name]) = true) :
    ∃ out, package_license_files package fs = Except.ok out ∧
      dir ++ [OsStr.str lf] ∉ out := by
  refine ⟨scanEntries dir entries [], ?_, ?_⟩
  · simp [package_license_files, hdir, hlf, hex, hrd]
  · intro hmem
    rcases (mem_scanEntries dir entries [] _).mp hmem with h | ⟨name, hent, heqq, _⟩
    · cases h
    · have hname : OsStr.str lf = OsStr.str name := by
        have := congrArg List.getLast? heqq
        simpa using this
      have hex2 : fs.existsFile (dir ++ [OsStr.str name]) = true :=
        hfs _ hent ⟨OsStr.str name⟩ rfl
      rw [hname, hex2] at hex
      exact Bool.noConfusion hex

/-- C6, witness: the fixture package declares `COPYING`, which does not
exist; the locator succeeds and its result does not contain it. -/
theorem C6_nonexistent_declared_dropped_witness :
    ∃ out, package_license_files pkgLoc fsLoc = Except.ok out ∧
      dirFoo ++ [OsStr.str "COPYING"] ∉ out :=
  C6_nonexistent_declared_dropped pkgLoc fsLoc dirFoo "COPYING" entriesLoc rfl rfl rfl rfl
    (by
      intro e he d hd
      simp only [entriesLoc, List.mem_cons, List.not_mem_nil, or_false] at he
      rcases he with rfl | rfl | rfl | rfl
      · injection hd with hd
        subst hd
        decide
      · cases hd
      · injection hd with hd
        subst hd
        decide
      · injection hd with hd
        subst hd
        decide)

/-- C7: every successfully read, UTF-8-named immediate entry whose filename
starts (case-sensitively) with one of the prefix strings `LICENSE`,
`UNLICENSE`, `COPYRIGHT` has its path in the locator's result, and the
result has no duplicates and is in (strictly increasing) lexicographic path
order. -/
theorem C7_scan_inclusion_sorted_nodup (package : Package) (fs : Filesystem)
    (dir : FsPath) (entries : List (Option DirEntry)) (out : List FsPath)
    (hdir : pathParent package.manifest_path = some dir)
    (hrd : fs.read_dir = some entries)
    (h : package_license_files package fs = Except.ok out) :
    (∀ name : String, some (DirEntry.mk (OsStr.str name)) ∈ entries →
      (∃ pre ∈ LICENCE_FILE_NAMES, startsWithStr name pre = true) →
      dir ++ [OsStr.str name] ∈ out) ∧
    out.Pairwise (fun a b => pathLt a b = true) ∧ out.Nodup := by
  rcases plf_ok_shape package fs dir entries hdir hrd with ⟨res0, heq, _, hsort, _⟩
  rw [h] at heq
  injection heq with heq
  subst heq
  refine ⟨?_, ?_, ?_⟩
  · intro name hent hpre
    exact (mem_scanEntries dir entries res0 _).mpr (Or.inr ⟨name, hent, rfl, hpre⟩)
  · exact sorted_scanEntries dir entries res0 hsort
  · exact nodup_of_sorted pathLt pathLt_irrefl _ (sorted_scanEntries dir entries res0 hsort)

/-- C7, witness: on the fixture directory the locator's result is exactly
`[foo/LICENSE-MIT]`; the recognized entry is included and the result is
duplicate-free. -/
theorem C7_scan_inclusion_sorted_nodup_witness :
    dirFoo ++ [OsStr.str "LICENSE-MIT"] ∈ [dirFoo ++ [OsStr.str "LICENSE-MIT"]] ∧
    ([dirFoo ++ [OsStr.str "LICENSE-MIT"]] : List FsPath).Nodup :=
  ⟨(C7_scan_inclusion_sorted_nodup pkgLoc fsLoc dirFoo entriesLoc
      [dirFoo ++ [OsStr.str "LICENSE-MIT"]] rfl rfl rfl).1
      "LICENSE-MIT" (by decide) (by decide),
   (C7_scan_inclusion_sorted_nodup pkgLoc fsLoc dirFoo entriesLoc
      [dirFoo ++ [OsStr.str "LICENSE-MIT"]] rfl rfl rfl).2.2⟩

/-- C8: when the manifest directory cannot be listed, the locator returns an
error rather than an empty or partial result. -/
theorem C8_unlistable_dir_error (package : Package) (fs : Filesystem)
    (h : fs.read_dir = none) :
    ∃ e : String, package_license_files package fs = Except.error e := by
  cases hp : pathParent package.manifest_path with
  | none =>
    exact ⟨"Package manifest path missing", by simp [package_license_files, hp]⟩
  | some dir =>
    exact ⟨"could not list directory", by simp [package_license_files, hp, h]⟩

/-- C8, witness: the locator fails on the fixture filesystem whose directory
listing fails. -/
theorem C8_unlistable_dir_error_witness :
    ∃ e : String, package_license_files pkgLoc fsNoDir = Except.error e :=
  C8_unlistable_dir_error pkgLoc fsNoDir rfl

/-- C9: the license-dump renderer writes exactly (number of files minus one)
`-----NEXT LICENSE-----` separators for a bundle, and a bundle with zero
files is omitted entirely (no begin or end marker). -/
theorem C9_separator_count (readFile : FsPath → List Nat) (t : LicenseTable) :
    (render_license_table readFile t).count WriteEvent.nextSep =
      t.license_files.length - 1 ∧
    (t.license_files = [] → render_license_table readFile t = []) := by
  constructor
  · rcases t with ⟨name, version, files⟩
    cases files with
    | nil => simp [render_license_table]
    | cons f fs =>
      rw [show render_license_table readFile ⟨name, version, f :: fs⟩ =
            WriteEvent.beginMark name version ::
              (renderFilesGo readFile (f :: fs).length (f :: fs) ++
                [WriteEvent.endMark name version]) from by
            simp [render_license_table]]
      rw [List.count_cons, List.count_append, renderFilesGo_count]
      rw [show ([WriteEvent.endMark name version].count WriteEvent.nextSep) = 0 from by
            simp [List.count_cons]]
      rw [show (WriteEvent.beginMark name version == WriteEvent.nextSep) = false from by
            simp]
      simp only [Bool.false_eq_true, if_false, List.length_cons]
      omega
  · intro h
    simp [render_license_table, h]

/-- C9, witness: a two-file bundle renders with exactly one separator, and a
zero-file bundle renders nothing. -/
theorem C9_separator_count_witness :
    (render_license_table readFileLoc tblTwo).count WriteEvent.nextSep = 1 ∧
    render_license_table readFileLoc tblZero = [] :=
  ⟨by
    have h := (C9_separator_count readFileLoc tblTwo).1
    simpa [tblTwo] using h,
   (C9_separator_count readFileLoc tblZero).2 rfl⟩

/-- C10: entries whose per-entry read fails and entries whose filename is not
valid UTF-8 are silently skipped by the scan: the locator still succeeds, no
path with a non-UTF-8 final component is in the result, and dropping the
invalid entries from the listing leaves the result unchanged. -/
theorem C10_invalid_entries_skipped (package : Package) (fs : Filesystem)
    (dir : FsPath) (entries : List (Option DirEntry))
    (hdir : pathParent package.manifest_path = some dir)
    (hrd : fs.read_dir = some entries) :
    ∃ out, package_license_files package fs = Except.ok out ∧
      (∀ k : Nat, dir ++ [OsStr.raw k] ∉ out) ∧
      package_license_files package
          { fs with read_dir := some (entries.filter validEntry) } =
        Except.ok out := by
  rcases plf_ok_shape package fs dir entries hdir hrd with ⟨res0, heq, hstr, _, hgen⟩
  refine ⟨scanEntries dir entries res0, heq, ?_, ?_⟩
  · intro k
    exact raw_not_mem_scanEntries dir entries res0 hstr k
  · have hg := hgen { fs with read_dir := some (entries.filter validEntry) } rfl rfl
    rw [hg, scanEntries_filter_valid]

/-- C10, witness: on the fixture listing (which contains one errored entry
and one non-UTF-8 entry) the locator succeeds, yields no non-UTF-8 path,
and is unchanged when the invalid entries are dropped. -/
theorem C10_invalid_entries_skipped_witness :
    ∃ out, package_license_files pkgLoc fsLoc = Except.ok out ∧
      (∀ k : Nat, dirFoo ++ [OsStr.raw k] ∉ out) ∧
      package_license_files pkgLoc
          { fsLoc with read_dir := some (entriesLoc.filter validEntry) } =
        Except.ok out :=
  C10_invalid_entries_skipped pkgLoc fsLoc dirFoo entriesLoc rfl rfl

end CargoBom
